import Mathlib

/-!
Verification of `impl/internal/dht/getput.go` (BEP44-style DHT get/put
orchestration).

The Go file drives a traversal engine (external collaborator) and consumes
three kinds of channel events in a `select` loop: a candidate arriving on
`vChan`, the traversal's stalled signal, and the caller's context being
done.  We embed each loop as a function over the list of events the
`select` consumed, in the order it consumed them.  Go's `select` chooses
uniformly among ready cases, so any interleaving of ready events is a
possible consumption order; `SelectStep` additionally records which cases
were ready when a choice was made, to reason about simultaneous readiness.

Machine integers: `Seq` is a Go `int64`; no arithmetic is performed on it
(only comparisons), so it is embedded as `Int`, with `int64Min` standing
for `math.MinInt64` where the code uses it as an initial value.
-/

/-- `math.MinInt64`. -/
def int64Min : Int := -(2 ^ 63)

/-- `FullGetResult` of getput.go: sequence, value bytes, signature bytes,
and the mutable flag. -/
structure FullGetResult where
  Seq : Int
  V : List Nat
  Sig : List Nat
  Mutable : Bool
deriving DecidableEq, Repr

/-- The two values `ctx.Err()` can return for a done context. -/
inductive CtxErr where
  | canceled
  | deadlineExceeded
deriving DecidableEq, Repr

/-- The operation-level errors that flow through `Get`/`Put`:
a propagated context error, `errors.New("value not found")`, or a
per-node write error (`res.ToError()` of node `i` in the fan-out). -/
inductive GoError where
  | ctx (e : CtxErr)
  | notFound
  | write (i : Nat)
deriving DecidableEq, Repr

/-- One event consumed by the `select` in `Get` (and in `Put`'s discovery
loop): the stalled signal, a candidate from `vChan`, or `ctx.Done()`. -/
inductive GetEvent where
  | stalled
  | value (v : FullGetResult)
  | ctxDone (e : CtxErr)
deriving DecidableEq, Repr

/-- The mutable-candidate update in `Get`'s loop:
`if v.Seq >= ret.Seq { ret = v }`. -/
def bestStep (ret v : FullGetResult) : FullGetResult :=
  if v.Seq ≥ ret.Seq then v else ret

/-- `Get`'s `ret` before the loop: the zero `FullGetResult` with
`ret.Seq = math.MinInt64`. -/
def initRet : FullGetResult :=
  { Seq := int64Min, V := [], Sig := [], Mutable := false }

/-- The `receiveResults` loop of `Get` (getput.go lines 110-129), as a
function of the events the `select` consumed in order.  `none` means the
event list ran out while the loop was still blocked on `select`.
  * stalled: exit; `err = errors.New("value not found")` unless `gotValue`;
  * candidate: `gotValue = true`; immutable breaks with `ret = v`;
    mutable updates `ret` when `v.Seq >= ret.Seq` and loops;
  * `ctx.Done()`: exit with `err = ctx.Err()`. -/
def getLoop (ret : FullGetResult) (gotValue : Bool) :
    List GetEvent → Option (FullGetResult × Option GoError)
  | [] => none
  | GetEvent.stalled :: _ =>
      some (ret, if gotValue = true then none else some GoError.notFound)
  | GetEvent.ctxDone e :: _ => some (ret, some (GoError.ctx e))
  | GetEvent.value v :: rest =>
      if v.Mutable = true then getLoop (bestStep ret v) true rest
      else some (v, none)

/-- `Get` (getput.go lines 99-133): the reconciliation loop started from the
zero result with `Seq = math.MinInt64` and `gotValue = false`. -/
def Get (events : List GetEvent) : Option (FullGetResult × Option GoError) :=
  getLoop initRet false events

/-- One `select` round together with which terminating cases were ready
when the choice was made: `stallReady` means `op.Stalled()` was closed,
`ctxReady` means `ctx.Done()` was closed (the context was cancelled). -/
structure SelectStep where
  stallReady : Bool
  ctxReady : Bool
  ev : GetEvent
deriving DecidableEq, Repr

/-- A step is a possible choice of Go's `select`: the chosen case was ready.
(`select` picks uniformly at random among ready cases, so any ready case
can be the one consumed.) -/
def stepWF (s : SelectStep) : Bool :=
  match s.ev with
  | GetEvent.stalled => s.stallReady
  | GetEvent.ctxDone _ => s.ctxReady
  | GetEvent.value _ => true

/-- `Get` run on a trace that records channel readiness at each round. -/
def GetSel (steps : List SelectStep) : Option (FullGetResult × Option GoError) :=
  Get (steps.map SelectStep.ev)

/-- A node's reply `r = res.Reply.R` as the classifier in
`startGetTraversal` (getput.go lines 49-74) reads it: value bytes `r.V`,
public key `r.K`, sequence pointer `r.Seq` (a Go `*int64`, so possibly
nil — `none` here), signature `r.Sig`. -/
structure Reply where
  V : List Nat
  K : List Nat
  Seq : Option Int
  Sig : List Nat
deriving DecidableEq, Repr

/-- What the classifier does with a reply: emit an immutable candidate,
emit a mutable candidate, discard it, or panic (the nil dereference of
`*r.Seq` at line 61, which aborts the process). -/
inductive Classified where
  | immut (v : List Nat) (sig : List Nat)
  | mut (seq : Int) (v : List Nat) (sig : List Nat)
  | discard
  | panic
deriving DecidableEq, Repr

/-- The per-reply classification of `startGetTraversal` (lines 52-73),
parametric in the hash (`sha1.Sum`) and the signature check
(`bep44.Verify`):
`if sha1.Sum(bv) == target { immutable } else if
sha1.Sum(append(r.K, salt...)) == target && Verify(..., *r.Seq, ...)
{ mutable } else { discard }`.  The `&&` short-circuits, so `*r.Seq` is
dereferenced exactly when the pubkey-salt hash matches; a nil `r.Seq`
there panics instead of classifying. -/
def classify (hash : List Nat → List Nat)
    (verify : List Nat → List Nat → Int → List Nat → List Nat → Bool)
    (target salt : List Nat) (r : Reply) : Classified :=
  if hash r.V = target then Classified.immut r.V r.Sig
  else if hash (r.K ++ salt) = target then
    match r.Seq with
    | none => Classified.panic
    | some seq =>
        if verify r.K salt seq r.V r.Sig = true then Classified.mut seq r.V r.Sig
        else Classified.discard
  else Classified.discard

/-- A Go `interface{}` value as used for `ClosestData`: nil, a string, or a
value of any other dynamic type. -/
inductive GoAny where
  | nil
  | str (s : String)
  | other
deriving DecidableEq, Repr

/-- Whether a one-value type assertion `.(string)` would succeed. -/
def GoAny.isStr : GoAny → Bool
  | GoAny.str _ => true
  | _ => false

/-- The part of `traversal.QueryResult` the token filtering touches:
`ResponseFrom` (nil-ness modelled as a Bool: `true` = the node is reported
as a responder, eligible for the closest set) and `ClosestData`. -/
structure TQR where
  responseFrom : Bool
  closestData : GoAny
deriving DecidableEq, Repr

/-- Lines 75-79 of getput.go:
`tqr.ClosestData, _ = tqr.ClosestData.(string)` — a two-value type
assertion whose string result (zero value `""` on failure) is stored back
into the `interface{}` field, so the field afterwards always holds a
string and is never nil — followed by
`if tqr.ClosestData == nil { tqr.ResponseFrom = nil }`. -/
def processTQR (t : TQR) : TQR :=
  let coerced : GoAny :=
    match t.closestData with
    | GoAny.str s => GoAny.str s
    | _ => GoAny.str ""
  if coerced = GoAny.nil then { responseFrom := false, closestData := coerced }
  else { responseFrom := t.responseFrom, closestData := coerced }

/-- A member of `op.Closest()`: node address and its `Data` payload. -/
structure Elem where
  addr : Nat
  data : GoAny
deriving DecidableEq, Repr

/-- `Put`'s fan-out (lines 168-183), sequentialised in range order with the
last write to the shared named return `err` winning:  for each element,
`token := elem.Data.(string)` (a panic — third component `true` — if the
payload is not a string), then `err = res.ToError()` of that node's write.
`w` gives each node's write outcome; the `Option GoError` argument is the
value `err` holds entering the fan-out.  Returns (addresses written, final
`err`, panicked). -/
def fanOutRun : List Elem → (Nat → Option GoError) → Option GoError →
    List Nat × Option GoError × Bool
  | [], _, e => ([], e, false)
  | el :: rest, w, e =>
    match el.data with
    | GoAny.str _ =>
        let r := fanOutRun rest w (w el.addr)
        (el.addr :: r.1, r.2)
    | _ => ([], e, true)

/-- The `autoSeq` update in `Put`'s discovery loop:
`if v.Mutable && v.Seq > autoSeq { autoSeq = v.Seq }`. -/
def autoStep (a : Int) (v : FullGetResult) : Int :=
  if v.Mutable = true ∧ v.Seq > a then v.Seq else a

/-- The `notDone` discovery loop of `Put` (lines 150-164): every candidate
(mutable or not) keeps the loop running, updating `autoSeq`; the loop only
exits on the stalled signal (no error) or `ctx.Done()` (`err = ctx.Err()`).
`none` means the event list ran out while still blocked. -/
def putDiscover : Int → List GetEvent → Option (Int × Option CtxErr)
  | _, [] => none
  | a, GetEvent.value v :: rest => putDiscover (autoStep a v) rest
  | a, GetEvent.stalled :: _ => some (a, none)
  | a, GetEvent.ctxDone e :: _ => some (a, some e)

/-- What a run of `Put` did: the argument passed to the caller's `seqToPut`
builder (always invoked once discovery exits its loop), the node addresses
the fan-out wrote to, the final value of the named return `err`, and
whether a token assertion panicked. -/
structure PutResult where
  builderArg : Int
  attempted : List Nat
  err : Option GoError
  panicked : Bool
deriving DecidableEq, Repr

/-- `Put` (lines 137-186): the discovery loop from `autoSeq = 0`, then —
with no early return, whatever the loop's exit — `put := seqToPut(autoSeq)`
and the fan-out writes over the closest set, each write assigning its
outcome to the shared named return `err`. -/
def PutModel (events : List GetEvent) (closest : List Elem)
    (w : Nat → Option GoError) : Option PutResult :=
  match putDiscover 0 events with
  | none => none
  | some (a, de) =>
      let f := fanOutRun closest w (Option.map GoError.ctx de)
      some { builderArg := a, attempted := f.1, err := f.2.1, panicked := f.2.2 }

/-- The traversal parameters a caller of `startGetTraversal` fixes:
`Alpha: 15` and the `seq` pointer forwarded to every `s.Get` query. -/
structure TraversalConfig where
  alpha : Nat
  seqForwarded : Option Int
deriving DecidableEq, Repr

/-- `startGetTraversal`'s configuration as a function of its `seq`
argument (line 37: `Alpha: 15`; line 44 forwards `seq` to `s.Get`). -/
def startGetTraversalConfig (seq : Option Int) : TraversalConfig :=
  { alpha := 15, seqForwarded := seq }

/-- The configuration `Put` uses: line 142-144 passes `nil` for `seq`. -/
def putTraversalConfig : TraversalConfig := startGetTraversalConfig none

/-- Concrete mutable candidate used in witnesses. -/
def m5 : FullGetResult := { Seq := 5, V := [1], Sig := [], Mutable := true }

/-- Concrete closest-set element with a string token. -/
def elem0 : Elem := { addr := 0, data := GoAny.str "t" }

/-- Concrete all-writes-succeed outcome function. -/
def wOk : Nat → Option GoError := fun _ => none

/-- The `[5, 3, 7, 7]` arrival order of the spec's tie-break example, with
distinct values so the two seq-7 candidates can be told apart. -/
def cs5377 : List FullGetResult :=
  [{ Seq := 5, V := [1], Sig := [], Mutable := true },
   { Seq := 3, V := [2], Sig := [], Mutable := true },
   { Seq := 7, V := [3], Sig := [], Mutable := true },
   { Seq := 7, V := [4], Sig := [], Mutable := true }]

/-- Immutable candidate used in witnesses. -/
def imm9 : FullGetResult := { Seq := 0, V := [9], Sig := [], Mutable := false }

/-- A concrete stand-in for the hash collaborator (counterexamples only):
any constant function exhibits the collision `hash V = hash (K ++ salt)`
that the real `sha1.Sum` exhibits whenever `V = K ++ salt`. -/
def hash0 : List Nat → List Nat := fun _ => []

/-- A concrete stand-in for `bep44.Verify` that accepts (a signer who owns
the key can always produce an accepting signature). -/
def verify0 : List Nat → List Nat → Int → List Nat → List Nat → Bool :=
  fun _ _ _ _ _ => true

/-- A reply whose value bytes equal `K ++ salt` (salt empty), so with the
same hash applied to both, the immutable and the mutable acceptance
conditions hold simultaneously. -/
def reply0 : Reply := { V := [1], K := [1], Seq := some 7, Sig := [] }

/-- A hash stand-in that separates `V = [2]` from `K ++ salt = [1]`:
`hash1 [2] = [9]` misses the target `[]`, `hash1 [1] = []` hits it. -/
def hash1 : List Nat → List Nat := fun l => if l = [2] then [9] else []

/-- A reply with a matching pubkey-salt hash (under `hash1`, target `[]`)
but a nil sequence pointer: line 61 dereferences `*r.Seq` and panics. -/
def replyNilSeq : Reply := { V := [2], K := [1], Seq := none, Sig := [] }

/-- Helper: a run of mutable candidates followed by the context case folds
`bestStep` over the candidates and exits with `ctx.Err()`. -/
theorem getLoop_mut_ctxDone (cs : List FullGetResult) :
    ∀ (ret : FullGetResult) (b : Bool) (e : CtxErr) (rest : List GetEvent),
    (∀ v ∈ cs, v.Mutable = true) →
    getLoop ret b (cs.map GetEvent.value ++ GetEvent.ctxDone e :: rest)
      = some (cs.foldl bestStep ret, some (GoError.ctx e)) := by
  induction cs with
  | nil => intro ret b e rest _; rfl
  | cons v tl ih =>
      intro ret b e rest h
      have hv : v.Mutable = true := h v (List.mem_cons_self v tl)
      simp only [List.map_cons, List.cons_append, getLoop, hv, if_true, List.foldl_cons]
      exact ih (bestStep ret v) true e rest fun w hw => h w (List.mem_cons_of_mem v hw)

/-- Helper: with `gotValue` already true, a run of mutable candidates
followed by the stalled case folds `bestStep` and exits with no error. -/
theorem getLoop_mut_stalled (cs : List FullGetResult) :
    ∀ (ret : FullGetResult) (rest : List GetEvent),
    (∀ v ∈ cs, v.Mutable = true) →
    getLoop ret true (cs.map GetEvent.value ++ GetEvent.stalled :: rest)
      = some (cs.foldl bestStep ret, none) := by
  induction cs with
  | nil => intro ret rest _; rfl
  | cons v tl ih =>
      intro ret rest h
      have hv : v.Mutable = true := h v (List.mem_cons_self v tl)
      simp only [List.map_cons, List.cons_append, getLoop, hv, if_true, List.foldl_cons]
      exact ih (bestStep ret v) rest fun w hw => h w (List.mem_cons_of_mem v hw)

/-- Helper: any run of mutable candidates followed by an immutable
candidate exits immediately with that candidate and no error, whatever
events follow. -/
theorem getLoop_mut_immut (cs : List FullGetResult) :
    ∀ (ret : FullGetResult) (b : Bool) (imm : FullGetResult) (rest : List GetEvent),
    (∀ v ∈ cs, v.Mutable = true) → imm.Mutable = false →
    getLoop ret b (cs.map GetEvent.value ++ GetEvent.value imm :: rest)
      = some (imm, none) := by
  induction cs with
  | nil =>
      intro ret b imm rest _ himm
      simp only [List.map_nil, List.nil_append, getLoop, himm]
      simp
  | cons v tl ih =>
      intro ret b imm rest h himm
      have hv : v.Mutable = true := h v (List.mem_cons_self v tl)
      simp only [List.map_cons, List.cons_append, getLoop, hv, if_true]
      exact ih (bestStep ret v) true imm rest (fun w hw => h w (List.mem_cons_of_mem v hw)) himm

/-- Helper: once `gotValue` is true the loop can never exit with the
NotFound error. -/
theorem getLoop_true_no_notFound (evs : List GetEvent) :
    ∀ (ret r : FullGetResult) (er : Option GoError),
    getLoop ret true evs = some (r, er) → er ≠ some GoError.notFound := by
  induction evs with
  | nil => intro ret r er h; simp [getLoop] at h
  | cons ev tl ih =>
      intro ret r er h
      cases ev with
      | stalled =>
          simp only [getLoop, Option.some.injEq, Prod.mk.injEq] at h
          simp only [reduceIte] at h
          rw [← h.2]; simp
      | ctxDone e =>
          simp only [getLoop, Option.some.injEq, Prod.mk.injEq] at h
          rw [← h.2]; simp
      | value v =>
          by_cases hv : v.Mutable = true
          · simp only [getLoop, hv, if_true] at h
            exact ih (bestStep ret v) r er h
          · simp only [getLoop] at h
            rw [if_neg hv] at h
            simp only [Option.some.injEq, Prod.mk.injEq] at h
            rw [← h.2]; simp

/-- Helper: the `bestStep` fold either keeps the accumulator (everything
seen was strictly smaller) or returns an element of the list that is a
maximum, with everything arriving after it strictly smaller (the
later-arrival tie-break). -/
theorem foldl_bestStep_spec (cs : List FullGetResult) :
    ∀ (acc r : FullGetResult), cs.foldl bestStep acc = r →
    (r = acc ∧ ∀ v ∈ cs, v.Seq < acc.Seq)
    ∨ (∃ pre post, cs = pre ++ r :: post ∧ acc.Seq ≤ r.Seq
        ∧ (∀ v ∈ pre, v.Seq ≤ r.Seq) ∧ (∀ v ∈ post, v.Seq < r.Seq)) := by
  induction cs with
  | nil => intro acc r hr; left; exact ⟨hr.symm, by simp⟩
  | cons v tl ih =>
      intro acc r hr
      rw [List.foldl_cons] at hr
      by_cases hv : v.Seq ≥ acc.Seq
      · rw [show bestStep acc v = v from if_pos hv] at hr
        rcases ih v r hr with ⟨heq, hall⟩ | ⟨pre, post, hdec, hacc, hpre, hpost⟩
        · subst heq
          right
          exact ⟨[], tl, by simp, hv, by simp, hall⟩
        · right
          refine ⟨v :: pre, post, by rw [List.cons_append, ← hdec], le_trans hv hacc, ?_, hpost⟩
          intro w hw
          rcases List.mem_cons.mp hw with hw | hw
          · subst hw; exact hacc
          · exact hpre w hw
      · have hlt : v.Seq < acc.Seq := lt_of_not_ge hv
        rw [show bestStep acc v = acc from if_neg hv] at hr
        rcases ih acc r hr with ⟨heq, hall⟩ | ⟨pre, post, hdec, hacc, hpre, hpost⟩
        · left
          refine ⟨heq, ?_⟩
          intro w hw
          rcases List.mem_cons.mp hw with hw | hw
          · subst hw; exact hlt
          · exact hall w hw
        · right
          refine ⟨v :: pre, post, by rw [List.cons_append, ← hdec], hacc, ?_, hpost⟩
          intro w hw
          rcases List.mem_cons.mp hw with hw | hw
          · subst hw; exact le_of_lt (lt_of_lt_of_le hlt hacc)
          · exact hpre w hw

/-- Helper: `Put`'s discovery loop consumes candidate events by folding
`autoStep`. -/
theorem putDiscover_values (cs : List FullGetResult) :
    ∀ (a : Int) (evs : List GetEvent),
    putDiscover a (cs.map GetEvent.value ++ evs) = putDiscover (cs.foldl autoStep a) evs := by
  induction cs with
  | nil => intro a evs; rfl
  | cons v tl ih =>
      intro a evs
      simp only [List.map_cons, List.cons_append, putDiscover, List.foldl_cons]
      exact ih (autoStep a v) evs

/-- Helper: when every closest-set element carries a string payload the
fan-out writes to every element in order and does not panic. -/
theorem fanOutRun_str (l : List Elem) :
    ∀ (w : Nat → Option GoError) (e : Option GoError),
    (∀ el ∈ l, el.data.isStr = true) →
    ∃ er, fanOutRun l w e = (l.map Elem.addr, er, false) := by
  induction l with
  | nil => intro w e _; exact ⟨e, rfl⟩
  | cons el tl ih =>
      intro w e h
      have hel : el.data.isStr = true := h el (List.mem_cons_self el tl)
      obtain ⟨er, her⟩ := ih w (w el.addr) fun x hx => h x (List.mem_cons_of_mem el hx)
      refine ⟨er, ?_⟩
      cases hd : el.data with
      | str s => simp only [fanOutRun, hd, her, List.map_cons]
      | nil => rw [hd] at hel; simp [GoAny.isStr] at hel
      | other => rw [hd] at hel; simp [GoAny.isStr] at hel

/-- Helper: on a mutable candidate `autoStep` is `max`. -/
theorem autoStep_eq_max (a : Int) (v : FullGetResult) (hv : v.Mutable = true) :
    autoStep a v = max a v.Seq := by
  unfold autoStep
  by_cases h2 : v.Seq > a
  · rw [if_pos ⟨hv, h2⟩]
    exact (max_eq_right (le_of_lt h2)).symm
  · rw [if_neg (by tauto)]
    exact (max_eq_left (not_lt.mp h2)).symm

/-- Helper: the `autoStep` fold is the `max` fold over the sequence
numbers of the mutable candidates. -/
theorem foldl_autoStep_eq_max (cs : List FullGetResult) :
    ∀ a : Int,
    cs.foldl autoStep a
      = ((cs.filter fun v => v.Mutable).map fun v => v.Seq).foldl max a := by
  induction cs with
  | nil => intro a; rfl
  | cons v tl ih =>
      intro a
      by_cases hv : v.Mutable = true
      · rw [List.foldl_cons, autoStep_eq_max a v hv, List.filter_cons, if_pos (by simp [hv])]
        rw [List.map_cons, List.foldl_cons]
        exact ih (max a v.Seq)
      · have hstep : autoStep a v = a := by
          unfold autoStep; rw [if_neg (by tauto)]
        rw [List.foldl_cons, hstep, List.filter_cons, if_neg (by simp [hv])]
        exact ih a

/-- Helper: a `max` fold is at least its initial value. -/
theorem le_foldl_max (l : List Int) : ∀ a : Int, a ≤ l.foldl max a := by
  induction l with
  | nil => intro a; exact le_refl a
  | cons x tl ih => intro a; exact le_trans (le_max_left a x) (ih (max a x))

/-- Helper: a `max` fold bounds every member of the list. -/
theorem mem_le_foldl_max (l : List Int) : ∀ a : Int, ∀ x ∈ l, x ≤ l.foldl max a := by
  induction l with
  | nil => intro a x hx; simp at hx
  | cons y tl ih =>
      intro a x hx
      rcases List.mem_cons.mp hx with h | h
      · subst h; exact le_trans (le_max_right a x) (le_foldl_max tl (max a x))
      · exact ih (max a y) x h

/-- Helper: `PutModel` unfolded once discovery's outcome is known. -/
theorem PutModel_eq (events : List GetEvent) (closest : List Elem)
    (w : Nat → Option GoError) (a : Int) (de : Option CtxErr)
    (h : putDiscover 0 events = some (a, de)) :
    PutModel events closest w = some
      ⟨a, (fanOutRun closest w (Option.map GoError.ctx de)).1,
        (fanOutRun closest w (Option.map GoError.ctx de)).2.1,
        (fanOutRun closest w (Option.map GoError.ctx de)).2.2⟩ := by
  unfold PutModel
  rw [h]

/-- Helper: after the coercing type assertion the token field always
holds a string. -/
theorem processTQR_str (t : TQR) : ∃ s, (processTQR t).closestData = GoAny.str s := by
  cases h : t.closestData with
  | str s => exact ⟨s, by simp [processTQR, h]⟩
  | nil => exact ⟨"", by simp [processTQR, h]⟩
  | other => exact ⟨"", by simp [processTQR, h]⟩

/-- Helper: `processTQR` never clears `ResponseFrom` (the nil check on
the coerced field can never fire). -/
theorem processTQR_keeps_response (t : TQR) :
    (processTQR t).responseFrom = t.responseFrom := by
  cases h : t.closestData with
  | str s => simp [processTQR, h]
  | nil => simp [processTQR, h]
  | other => simp [processTQR, h]

/-- Claim C3: for a stream of mutable candidates ending on a stall (no
immutable candidate, no cancellation), `Get` returns, with no error, a
candidate of the stream whose sequence is maximal and after which every
candidate has a strictly smaller sequence — i.e. the latest-arriving
candidate among those with the maximal sequence (a mutable candidate
replaces the recorded best whenever its sequence is greater than or equal
to it, and the best starts at `math.MinInt64`). -/
theorem get_reconciliation_latest_max (cs : List FullGetResult)
    (hne : cs ≠ []) (hmut : ∀ v ∈ cs, v.Mutable = true)
    (hbound : ∀ v ∈ cs, int64Min ≤ v.Seq) :
    ∃ r pre post,
      Get (cs.map GetEvent.value ++ [GetEvent.stalled]) = some (r, none)
      ∧ cs = pre ++ r :: post
      ∧ (∀ v ∈ cs, v.Seq ≤ r.Seq)
      ∧ (∀ v ∈ post, v.Seq < r.Seq) := by
  cases cs with
  | nil => exact absurd rfl hne
  | cons c tl =>
      have hc : c.Mutable = true := hmut c (List.mem_cons_self c tl)
      have hGet : Get ((c :: tl).map GetEvent.value ++ [GetEvent.stalled])
          = some ((c :: tl).foldl bestStep initRet, none) := by
        show getLoop initRet false _ = _
        simp only [List.map_cons, List.cons_append, getLoop, hc, if_true, List.foldl_cons]
        exact getLoop_mut_stalled tl (bestStep initRet c) []
          fun w hw => hmut w (List.mem_cons_of_mem c hw)
      rcases foldl_bestStep_spec (c :: tl) initRet ((c :: tl).foldl bestStep initRet) rfl with
        ⟨heq, hall⟩ | ⟨pre, post, hdec, hacc, hpre, hpost⟩
      · exfalso
        have h1 := hall c (List.mem_cons_self c tl)
        have h2 := hbound c (List.mem_cons_self c tl)
        exact absurd h2 (not_le.mpr h1)
      · refine ⟨(c :: tl).foldl bestStep initRet, pre, post, hGet, hdec, ?_, hpost⟩
        intro v hv
        rw [hdec] at hv
        rcases List.mem_append.mp hv with hv | hv
        · exact hpre v hv
        · rcases List.mem_cons.mp hv with hv | hv
          · rw [hv]
          · exact le_of_lt (hpost v hv)

/-- Claim C3 witness: on arrival order `[5, 3, 7, 7]` the theorem applies,
and evaluation shows the returned candidate is the second seq-7 one. -/
theorem get_reconciliation_latest_max_witness :
    ∃ r pre post,
      Get (cs5377.map GetEvent.value ++ [GetEvent.stalled]) = some (r, none)
      ∧ cs5377 = pre ++ r :: post
      ∧ (∀ v ∈ cs5377, v.Seq ≤ r.Seq)
      ∧ (∀ v ∈ post, v.Seq < r.Seq) :=
  get_reconciliation_latest_max cs5377 (by decide) (by decide) (by decide)

/-- Claim C4: an immutable candidate unconditionally becomes the result
and terminates the loop at once, no matter how many mutable candidates (of
any sequence) arrived before it; later events are never consumed, so no
later candidate can supersede it. -/
theorem get_immutable_short_circuit (cs : List FullGetResult) (imm : FullGetResult)
    (rest : List GetEvent) (hmut : ∀ v ∈ cs, v.Mutable = true)
    (himm : imm.Mutable = false) :
    Get (cs.map GetEvent.value ++ GetEvent.value imm :: rest) = some (imm, none) :=
  getLoop_mut_immut cs initRet false imm rest hmut himm

/-- Claim C4 witness: a mutable seq-5 candidate, then an immutable one,
then a pending mutable seq-99 candidate: the immutable one is returned. -/
theorem get_immutable_short_circuit_witness :
    Get ([m5].map GetEvent.value ++ GetEvent.value imm9 ::
        [GetEvent.value { Seq := 99, V := [2], Sig := [], Mutable := true }, GetEvent.stalled])
      = some (imm9, none) :=
  get_immutable_short_circuit [m5] imm9 _ (by decide) (by decide)

/-- Claim C2 counterexample: a well-formed `select` step in which both the
stall and the cancellation (`ctxReady = true`: the context is cancelled)
are ready and the stall is the chosen case — a choice Go's uniformly
random `select` permits — makes `get` return NotFound even though the
context was cancelled, refuting "never NotFound when cancelled /
cancellation takes priority over NotFound". -/
theorem get_cancelled_may_return_notFound :
    stepWF { stallReady := true, ctxReady := true, ev := GetEvent.stalled } = true
    ∧ ({ stallReady := true, ctxReady := true, ev := GetEvent.stalled } : SelectStep).ctxReady = true
    ∧ GetSel [{ stallReady := true, ctxReady := true, ev := GetEvent.stalled }]
        = some (initRet, some GoError.notFound) := by decide

/-- Claim C2 amended: whenever the reconciliation `select` consumes the
cancellation case, `get` returns the context's error (so never NotFound on
that path), whatever mutable candidates were consumed before. -/
theorem get_ctx_case_chosen_returns_ctx_error (cs : List FullGetResult) (e : CtxErr)
    (rest : List GetEvent) (hmut : ∀ v ∈ cs, v.Mutable = true) :
    ∃ r, Get (cs.map GetEvent.value ++ GetEvent.ctxDone e :: rest)
      = some (r, some (GoError.ctx e)) :=
  ⟨cs.foldl bestStep initRet, getLoop_mut_ctxDone cs initRet false e rest hmut⟩

/-- Claim C2 amended witness: cancellation before any candidate returns
the Canceled error. -/
theorem get_ctx_case_chosen_returns_ctx_error_witness :
    ∃ r, Get (([] : List FullGetResult).map GetEvent.value ++
        GetEvent.ctxDone CtxErr.canceled :: [])
      = some (r, some (GoError.ctx CtxErr.canceled)) :=
  get_ctx_case_chosen_returns_ctx_error [] CtxErr.canceled [] (by decide)

/-- Claim C9 counterexample: a mutable seq-5 candidate followed by
cancellation: `Get` returns the cancellation error together with that
candidate — the partial result is carried in the returned item, not
discarded (`m5` differs from the initial zero result). -/
theorem get_cancelled_returns_recorded_best :
    Get [GetEvent.value m5, GetEvent.ctxDone CtxErr.canceled]
      = some (m5, some (GoError.ctx CtxErr.canceled))
    ∧ m5 ≠ initRet := by decide

/-- Claim C9 amended: when the loop exits on cancellation it returns the
cancellation error alongside the recorded best-so-far item (the `bestStep`
fold over the candidates consumed), which callers are expected to ignore
because the error is non-nil; the partial result is not cleared. -/
theorem get_cancelled_keeps_partial_result (cs : List FullGetResult) (e : CtxErr)
    (rest : List GetEvent) (hmut : ∀ v ∈ cs, v.Mutable = true) :
    Get (cs.map GetEvent.value ++ GetEvent.ctxDone e :: rest)
      = some (cs.foldl bestStep initRet, some (GoError.ctx e)) :=
  getLoop_mut_ctxDone cs initRet false e rest hmut

/-- Claim C9 amended witness: after a mutable seq-5 candidate,
cancellation returns that candidate with the Canceled error. -/
theorem get_cancelled_keeps_partial_result_witness :
    Get ([m5].map GetEvent.value ++ GetEvent.ctxDone CtxErr.canceled :: [GetEvent.stalled])
      = some ([m5].foldl bestStep initRet, some (GoError.ctx CtxErr.canceled)) :=
  get_cancelled_keeps_partial_result [m5] CtxErr.canceled [GetEvent.stalled] (by decide)

/-- Claim C7: without cancellation, `get` returns NotFound exactly when
the stall is the first event consumed (no valid candidate was ever
received); and once at least one (mutable) candidate has been received, a
stall returns the recorded result with no error. -/
theorem get_notFound_iff_no_candidate_before_stall :
    (∀ (events : List GetEvent) (r : FullGetResult),
        (∀ e : CtxErr, GetEvent.ctxDone e ∉ events) →
        Get events = some (r, some GoError.notFound) →
        events.head? = some GetEvent.stalled)
    ∧ (∀ events : List GetEvent, events.head? = some GetEvent.stalled →
        Get events = some (initRet, some GoError.notFound))
    ∧ (∀ (cs : List FullGetResult) (rest : List GetEvent), cs ≠ [] →
        (∀ v ∈ cs, v.Mutable = true) →
        Get (cs.map GetEvent.value ++ GetEvent.stalled :: rest)
          = some (cs.foldl bestStep initRet, none)) := by
  refine ⟨?_, ?_, ?_⟩
  · intro events r hnc h
    cases events with
    | nil => simp [Get, getLoop] at h
    | cons ev tl =>
        cases ev with
        | stalled => rfl
        | ctxDone e => exact absurd (List.mem_cons_self _ _) (hnc e)
        | value v =>
            exfalso
            by_cases hv : v.Mutable = true
            · have h2 : getLoop (bestStep initRet v) true tl
                  = some (r, some GoError.notFound) := by
                simpa only [Get, getLoop, hv, if_true] using h
              exact getLoop_true_no_notFound tl (bestStep initRet v) r _ h2 rfl
            · have h2 := h
              simp only [Get, getLoop] at h2
              rw [if_neg hv] at h2
              simp only [Option.some.injEq, Prod.mk.injEq] at h2
              exact Option.noConfusion h2.2
  · intro events h
    cases events with
    | nil => simp at h
    | cons ev tl =>
        have hev : ev = GetEvent.stalled := by simpa using h
        subst hev
        rfl
  · intro cs rest hne hmut
    cases cs with
    | nil => exact absurd rfl hne
    | cons c tl =>
        have hc : c.Mutable = true := hmut c (List.mem_cons_self c tl)
        show getLoop initRet false _ = _
        simp only [List.map_cons, List.cons_append, getLoop, hc, if_true, List.foldl_cons]
        exact getLoop_mut_stalled tl (bestStep initRet c) rest
          fun w hw => hmut w (List.mem_cons_of_mem c hw)

/-- Claim C6 counterexample, two parts.  First, a reply whose value bytes
equal `publicKey ++ salt` (so both hashes coincide for any hash function,
as for the real `sha1.Sum`) and whose signature verifies satisfies BOTH
acceptance conditions, yet is classified immutable — refuting "accepted as
mutable iff the mutable condition holds" and "exactly one of the two
acceptance conditions holds for every emitted candidate".  Second, a reply
whose pubkey-salt hash matches the target but whose sequence pointer is
nil satisfies neither acceptance condition, yet is not discarded: line 61
dereferences `*r.Seq` and panics, aborting the process — refuting
"any reply satisfying neither condition is discarded without aborting the
traversal". -/
theorem classify_both_conditions_immutable_priority :
    (hash0 reply0.V = ([] : List Nat)
      ∧ hash0 (reply0.K ++ []) = ([] : List Nat)
      ∧ reply0.Seq = some 7
      ∧ verify0 reply0.K [] 7 reply0.V reply0.Sig = true
      ∧ classify hash0 verify0 [] [] reply0 = Classified.immut reply0.V reply0.Sig
      ∧ classify hash0 verify0 [] [] reply0 ≠ Classified.mut 7 reply0.V reply0.Sig)
    ∧ (hash1 replyNilSeq.V ≠ ([] : List Nat)
      ∧ hash1 (replyNilSeq.K ++ []) = ([] : List Nat)
      ∧ replyNilSeq.Seq = none
      ∧ classify hash1 verify0 [] [] replyNilSeq = Classified.panic) := by
  decide

/-- Claim C6 amended: a reply is accepted as an immutable candidate iff
`hash(value) = target`.  When `hash(value) ≠ target` and
`hash(publicKey ++ salt) = target`, the sequence pointer is dereferenced
(the `&&` short-circuits): a nil sequence panics — aborting the process,
not merely discarding the reply — and otherwise the reply is accepted as
a mutable candidate iff the signature verifies.  All remaining replies are
discarded without aborting the traversal.  Immutable takes priority when
both hash conditions hold, so at least one (not exactly one) of the two
acceptance conditions holds for every emitted candidate. -/
theorem classify_characterization (hash : List Nat → List Nat)
    (verify : List Nat → List Nat → Int → List Nat → List Nat → Bool)
    (target salt : List Nat) (r : Reply) :
    (classify hash verify target salt r = Classified.immut r.V r.Sig ↔ hash r.V = target)
    ∧ (∀ seq : Int, classify hash verify target salt r = Classified.mut seq r.V r.Sig
        ↔ (hash r.V ≠ target ∧ hash (r.K ++ salt) = target ∧ r.Seq = some seq
            ∧ verify r.K salt seq r.V r.Sig = true))
    ∧ (classify hash verify target salt r = Classified.panic
        ↔ (hash r.V ≠ target ∧ hash (r.K ++ salt) = target ∧ r.Seq = none))
    ∧ (classify hash verify target salt r = Classified.discard
        ↔ (hash r.V ≠ target
            ∧ (hash (r.K ++ salt) ≠ target
                ∨ ∃ seq, r.Seq = some seq ∧ verify r.K salt seq r.V r.Sig = false))) := by
  unfold classify
  by_cases h1 : hash r.V = target
  · simp [h1]
  · rw [if_neg h1]
    by_cases h2 : hash (r.K ++ salt) = target
    · rw [if_pos h2]
      cases hs : r.Seq with
      | none => simp [h1, h2]
      | some s =>
          dsimp only
          by_cases hv : verify r.K salt s r.V r.Sig = true
          · rw [if_pos hv]
            refine ⟨by simp [h1], ?_, by simp, ?_⟩
            · intro seq
              constructor
              · intro hmut
                rw [Classified.mut.injEq] at hmut
                obtain ⟨rfl, -, -⟩ := hmut
                exact ⟨h1, h2, rfl, hv⟩
              · rintro ⟨-, -, hseq, hv2⟩
                obtain rfl : s = seq := by simpa using hseq
                rfl
            · constructor
              · intro hd; exact absurd hd (by simp)
              · rintro ⟨-, h2s | ⟨seq, hseq, hv2⟩⟩
                · exact absurd h2 h2s
                · obtain rfl : s = seq := by simpa using hseq
                  rw [hv] at hv2
                  exact Bool.noConfusion hv2
          · rw [if_neg hv]
            refine ⟨by simp [h1], ?_, by simp, ?_⟩
            · intro seq
              constructor
              · intro hd; exact absurd hd (by simp)
              · rintro ⟨-, -, hseq, hv2⟩
                obtain rfl : s = seq := by simpa using hseq
                exact absurd hv2 hv
            · constructor
              · intro _
                exact ⟨h1, Or.inr ⟨s, rfl, by simpa using hv⟩⟩
              · intro _
                rfl
    · rw [if_neg h2]
      refine ⟨by simp [h1], ?_, by simp [h1, h2], ?_⟩
      · intro seq
        constructor
        · intro hd; exact absurd hd (by simp)
        · rintro ⟨-, h2t, -, -⟩
          exact absurd h2t h2
      · constructor
        · intro _
          exact ⟨h1, Or.inl h2⟩
        · intro _
          rfl

/-- Claim C1 evaluation: discovery succeeds (stall), the closest set has
one node, and that node's write fails: `Put` returns the write's error as
its own, because every fan-out goroutine assigns its outcome to the shared
named return `err` (the last write wins). The claim says the call reports
success regardless of write outcomes — the code contradicts it. -/
theorem put_all_writes_fail_returns_error :
    PutModel [GetEvent.stalled] [elem0] (fun _ => some (GoError.write 0))
      = some { builderArg := 0, attempted := [0], err := some (GoError.write 0), panicked := false }
    ∧ some (GoError.write 0) ≠ (none : Option GoError) := by decide

/-- Claim C5 counterexample: discovery exits on cancellation, yet the
builder is still invoked (`builderArg = 0`) and the fan-out still writes
to the closest-set node (`attempted = [0]`); worse, the successful write
overwrites the recorded cancellation error, so `Put` returns no error at
all — refuting "the Failed terminal state is reached directly from
Discovering, so neither the item builder invocation nor any fan-out node
write occurs". -/
theorem put_cancelled_still_builds_and_writes :
    PutModel [GetEvent.ctxDone CtxErr.canceled] [elem0] wOk
      = some { builderArg := 0, attempted := [0], err := none, panicked := false } := by decide

/-- Claim C5 amended: cancellation during discovery does not abort `put`:
the discovery loop exits with the context error recorded, but the builder
is still invoked (with the `autoSeq` accumulated so far) and the fan-out
still attempts a write to every node of the closest set. -/
theorem put_no_abort_on_cancellation (cs : List FullGetResult) (e : CtxErr)
    (rest : List GetEvent) (closest : List Elem) (w : Nat → Option GoError)
    (hcl : ∀ el ∈ closest, el.data.isStr = true) :
    ∃ res, PutModel (cs.map GetEvent.value ++ GetEvent.ctxDone e :: rest) closest w = some res
      ∧ res.builderArg = cs.foldl autoStep 0
      ∧ res.attempted = closest.map Elem.addr
      ∧ res.panicked = false := by
  obtain ⟨er, her⟩ := fanOutRun_str closest w (some (GoError.ctx e)) hcl
  have hd : putDiscover 0 (cs.map GetEvent.value ++ GetEvent.ctxDone e :: rest)
      = some (cs.foldl autoStep 0, some e) := by
    rw [putDiscover_values]; rfl
  refine ⟨_, PutModel_eq _ closest w _ _ hd, rfl, ?_, ?_⟩
  · show (fanOutRun closest w (Option.map GoError.ctx (some e))).1 = _
    rw [show Option.map GoError.ctx (some e) = some (GoError.ctx e) from rfl, her]
  · show (fanOutRun closest w (Option.map GoError.ctx (some e))).2.2 = false
    rw [show Option.map GoError.ctx (some e) = some (GoError.ctx e) from rfl, her]

/-- Claim C5 amended witness: immediate cancellation, one closest node:
the builder runs with 0 and the node is written. -/
theorem put_no_abort_on_cancellation_witness :
    ∃ res, PutModel (([] : List FullGetResult).map GetEvent.value ++
        GetEvent.ctxDone CtxErr.canceled :: []) [elem0] wOk = some res
      ∧ res.builderArg = ([] : List FullGetResult).foldl autoStep 0
      ∧ res.attempted = [elem0].map Elem.addr
      ∧ res.panicked = false :=
  put_no_abort_on_cancellation [] CtxErr.canceled [] [elem0] wOk (by decide)

/-- Claim C8 counterexample: a single mutable candidate with sequence -3
is observed during discovery, so the maximum sequence observed is -3, yet
the builder is invoked with 0 (`autoSeq` starts at 0 and only strictly
greater sequences replace it) — refuting "invoked with the maximum
sequence number observed across mutable candidates". -/
theorem put_negative_seq_builder_gets_zero :
    PutModel [GetEvent.value { Seq := -3, V := [], Sig := [], Mutable := true },
        GetEvent.stalled] [] wOk
      = some { builderArg := 0, attempted := [], err := none, panicked := false }
    ∧ ((-3 : Int) ≠ 0) := by decide

/-- Claim C8 amended: `put`'s discovery pass forwards no sequence hint
(`seq = nil`), and the builder is invoked exactly once with the maximum of
0 and the sequence numbers of the mutable candidates observed — 0 when no
mutable candidate was seen (in particular when no prior item exists) or
when all observed sequences are negative. -/
theorem put_builder_max_with_zero_floor :
    putTraversalConfig.seqForwarded = none
    ∧ (∀ (cs : List FullGetResult) (rest : List GetEvent) (closest : List Elem)
          (w : Nat → Option GoError),
        (∀ el ∈ closest, el.data.isStr = true) →
        ∃ res, PutModel (cs.map GetEvent.value ++ GetEvent.stalled :: rest) closest w = some res
          ∧ res.builderArg = ((cs.filter fun v => v.Mutable).map fun v => v.Seq).foldl max 0
          ∧ 0 ≤ res.builderArg
          ∧ (∀ v ∈ cs, v.Mutable = true → v.Seq ≤ res.builderArg)) := by
  refine ⟨rfl, ?_⟩
  intro cs rest closest w hcl
  obtain ⟨er, her⟩ := fanOutRun_str closest w none hcl
  have hd : putDiscover 0 (cs.map GetEvent.value ++ GetEvent.stalled :: rest)
      = some (cs.foldl autoStep 0, none) := by
    rw [putDiscover_values]; rfl
  refine ⟨_, PutModel_eq _ closest w _ _ hd, ?_, ?_, ?_⟩
  · show cs.foldl autoStep 0 = _
    exact foldl_autoStep_eq_max cs 0
  · show (0 : Int) ≤ cs.foldl autoStep 0
    rw [foldl_autoStep_eq_max cs 0]
    exact le_foldl_max _ 0
  · intro v hv hm
    show v.Seq ≤ cs.foldl autoStep 0
    rw [foldl_autoStep_eq_max cs 0]
    exact mem_le_foldl_max _ 0 v.Seq
      (List.mem_map.mpr ⟨v, List.mem_filter.mpr ⟨hv, by simp [hm]⟩, rfl⟩)

/-- Claim C8 amended witness: one mutable seq-5 candidate then stall: the
builder receives 5. -/
theorem put_builder_max_with_zero_floor_witness :
    ∃ res, PutModel (([m5] : List FullGetResult).map GetEvent.value ++
        GetEvent.stalled :: []) [elem0] wOk = some res
      ∧ res.builderArg = (([m5].filter fun v => v.Mutable).map fun v => v.Seq).foldl max 0
      ∧ 0 ≤ res.builderArg
      ∧ (∀ v ∈ ([m5] : List FullGetResult), v.Mutable = true → v.Seq ≤ res.builderArg) :=
  put_builder_max_with_zero_floor.2 [m5] [] [elem0] wOk (by decide)

/-- Claim C10 counterexample: a node that responded but produced no
usable token (`ClosestData = nil`) is NOT excluded: the coercing type
assertion turns the payload into the non-nil string `""`, the nil check
never fires, and the node stays eligible (`responseFrom` still true) —
refuting "nodes whose query produced no usable token are excluded from the
closest set during discovery". -/
theorem tokenless_node_not_excluded :
    processTQR { responseFrom := true, closestData := GoAny.nil }
      = { responseFrom := true, closestData := GoAny.str "" } := by decide

/-- Claim C10 amended: every node of the closest set carries a string
write token — not because tokenless nodes are excluded (they are not:
`processTQR` keeps `ResponseFrom` unchanged and coerces the payload to a
string, `""` when no usable token was returned) — and therefore the token
extraction (type assertion to string) performed for each fan-out write can
never fail on a closest set built from processed query results. -/
theorem closest_token_always_string :
    (∀ t : TQR, (∃ s, (processTQR t).closestData = GoAny.str s)
        ∧ (processTQR t).responseFrom = t.responseFrom)
    ∧ (∀ (l : List TQR) (addrs : TQR → Nat) (w : Nat → Option GoError) (e : Option GoError),
        (fanOutRun (l.map fun t => ⟨addrs t, (processTQR t).closestData⟩) w e).2.2 = false) := by
  constructor
  · intro t
    exact ⟨processTQR_str t, processTQR_keeps_response t⟩
  · intro l addrs w e
    have hmem : ∀ el ∈ (l.map fun t => (⟨addrs t, (processTQR t).closestData⟩ : Elem)),
        el.data.isStr = true := by
      intro el hel
      obtain ⟨t, ht, hteq⟩ := List.mem_map.mp hel
      obtain ⟨s, hs⟩ := processTQR_str t
      rw [← hteq]
      show ((processTQR t).closestData).isStr = true
      rw [hs]
      rfl
    obtain ⟨er, her⟩ := fanOutRun_str _ w e hmem
    rw [her]
